import Mathlib

/-!
Shallow embedding of the `rescue_prime` field-element engine
(`src/field_element/mod.rs` and the error type it uses from
`src/utils/errors.rs`).  Machine integers are modelled as `Nat` with an
explicit `% 2^64` (resp. `% 2^128`) wherever the Rust code wraps;
release semantics are used (overflow wraps, `debug_assert!` is compiled
out).  Fallible code returns `Except`.
-/

set_option maxRecDepth 40000

namespace RescuePrime

/-- `const PRIME: u64 = 0xFFFFFFFF00000001` — the field modulus 2^64 - 2^32 + 1. -/
def PRIME : Nat := 0xFFFFFFFF00000001

/-- `struct FieldElement { value: u64 }`.  The `value` field carries the
canonical representative; canonicity (`value < PRIME`) is stated as a
hypothesis where theorems need it, mirroring the Rust type invariant. -/
structure FieldElement where
  value : Nat
deriving DecidableEq, Repr

/-- `const ZERO: FieldElement = FieldElement { value: 0 }` -/
def ZERO : FieldElement := ⟨0⟩

/-- `const ONE: FieldElement = FieldElement { value: 1 }` -/
def ONE : FieldElement := ⟨1⟩

/-- The deserialization error type (`src/utils/errors.rs`), which is the
`FieldError` imported by `field_element/mod.rs`. -/
inductive FieldError where
  | DeserializationError
deriving DecidableEq, Repr

/-- `fn reduce(x: u128) -> u64` — reduces a 128-bit number using the
special form of `PRIME`.  Each conditional correction (add `PRIME` after
the borrow, subtract `PRIME` after the carry) is applied at most once,
exactly as in the source: the `overflowing_sub`/`overflowing_add` flag
is multiplied into a single `wrapping_add`/`wrapping_sub` of `PRIME`. -/
def reduce (x : Nat) : Nat :=
  let low := x % 2 ^ 64
  let middle_high := x / 2 ^ 64 % 2 ^ 64
  let middle := middle_high % 2 ^ 32
  let high := middle_high / 2 ^ 32
  -- let (diff, under) = low.overflowing_sub(high);
  -- let diff = diff.wrapping_add((under as u64) * PRIME);
  let diff0 := (low + 2 ^ 64 - high) % 2 ^ 64
  let under := if low < high then 1 else 0
  let diff := (diff0 + under * PRIME) % 2 ^ 64
  -- let product = (middle << 32) - middle;
  let product := (middle * 2 ^ 32 % 2 ^ 64 + 2 ^ 64 - middle) % 2 ^ 64
  -- let (result, over) = diff.overflowing_add(product);
  -- result.wrapping_sub((over as u64) * PRIME)
  let result := (diff + product) % 2 ^ 64
  let over := if 2 ^ 64 ≤ diff + product then 1 else 0
  (result + 2 ^ 64 - over * PRIME) % 2 ^ 64

namespace FieldElement

/-- `FieldElement::new` — reduces the raw `u64` modulo `PRIME`. -/
def new (value : Nat) : FieldElement :=
  ⟨value % PRIME⟩

/-- `impl Add for FieldElement` — `overflowing_add`, then one conditional
subtraction of `PRIME` driven by the carry, through `new`. -/
def add (a b : FieldElement) : FieldElement :=
  let result := (a.value + b.value) % 2 ^ 64
  let carry := if 2 ^ 64 ≤ a.value + b.value then 1 else 0
  new ((result + 2 ^ 64 - PRIME * carry) % 2 ^ 64)

/-- `impl Sub for FieldElement` — `overflowing_sub`, then one conditional
addition of `PRIME` driven by the borrow, through `new`. -/
def sub (a b : FieldElement) : FieldElement :=
  let result := (a.value + 2 ^ 64 - b.value) % 2 ^ 64
  let carry := if a.value < b.value then 1 else 0
  new ((result + PRIME * carry) % 2 ^ 64)

/-- `impl Neg for FieldElement` — `0 ↦ 0`, otherwise `PRIME - value`
(written with the `u64` wrap, which never fires for canonical values). -/
def neg (a : FieldElement) : FieldElement :=
  if a.value = 0 then ⟨a.value⟩ else ⟨(PRIME + 2 ^ 64 - a.value) % 2 ^ 64⟩

/-- `impl Mul for FieldElement` — full 128-bit product, then `reduce`,
then `new`. -/
def mul (a b : FieldElement) : FieldElement :=
  new (reduce (a.value * b.value % 2 ^ 128))

/-- `FieldElement::square` -/
def square (a : FieldElement) : FieldElement :=
  a.mul a

/-- `FieldElement::cube` -/
def cube (a : FieldElement) : FieldElement :=
  a.square.mul a

/-- `FieldElement::double` — a single doubled `overflowing_add` with one
conditional subtraction of `PRIME`, through `new`. -/
def double (a : FieldElement) : FieldElement :=
  let result := (a.value + a.value) % 2 ^ 64
  let carry := if 2 ^ 64 ≤ a.value + a.value then 1 else 0
  new ((result + 2 ^ 64 - PRIME * carry) % 2 ^ 64)

end FieldElement

/-- The repeated-squaring loop of `fn exp_acc<const N: usize>`:
`result = base; for _ in 0..N { result = result.square(); }`. -/
def squareTimes (base : FieldElement) : Nat → FieldElement
  | 0 => base
  | n + 1 => (squareTimes base n).square

/-- `fn exp_acc<const N: usize>(base, tail) -> FieldElement` — squares
`base` N times and multiplies by `tail`. -/
def exp_acc (n : Nat) (base tail : FieldElement) : FieldElement :=
  (squareTimes base n).mul tail

namespace FieldElement

/-- The `while pow_val > 0` loop of `FieldElement::exp`.  The loop body
squares `base`, multiplies `res` by it when the low bit of `pow_val` is
set, and halves `pow_val`.  The structural `fuel` argument only bounds
the number of iterations; the caller passes `pow.value`, which always
dominates the number of halvings, so the loop always runs to
`pow_val = 0` exactly as the Rust `while` does. -/
def expLoop : Nat → FieldElement → FieldElement → Nat → FieldElement
  | 0, _, res, _ => res
  | fuel + 1, base, res, powVal =>
    if 0 < powVal then
      let base2 := base.square
      let res2 := if powVal % 2 = 1 then res.mul base2 else res
      expLoop fuel base2 res2 (powVal / 2)
    else res

/-- `FieldElement::exp` — square-and-multiply over the exponent's bits. -/
def exp (a pow : FieldElement) : FieldElement :=
  if pow = ZERO then ONE
  else if a = ZERO then ZERO
  else
    let res := if pow.value % 2 = 1 then a else ONE
    expLoop pow.value a res (pow.value / 2)

/-- `FieldElement::inv` — the fixed 72-multiplication addition chain for
`self^(PRIME - 2)` (release semantics: the `debug_assert!` on a zero
operand is compiled out). -/
def inv (a : FieldElement) : FieldElement :=
  let t2 := a.cube
  let t3 := t2.square.mul a
  let t6 := exp_acc 3 t3 t3
  let t12 := exp_acc 6 t6 t6
  let t24 := exp_acc 12 t12 t12
  let t30 := exp_acc 6 t24 t6
  let t31 := t30.square.mul a
  let t63 := exp_acc 32 t31 t31
  t63.square.mul a

/-- `impl Div for FieldElement` — `self * other.inv()`. -/
def div (a b : FieldElement) : FieldElement :=
  a.mul b.inv

/-- `FieldElement::to_bytes` — `u64::to_le_bytes` of the value. -/
def to_bytes (a : FieldElement) : List Nat :=
  [a.value % 2 ^ 8, a.value / 2 ^ 8 % 2 ^ 8, a.value / 2 ^ 16 % 2 ^ 8,
   a.value / 2 ^ 24 % 2 ^ 8, a.value / 2 ^ 32 % 2 ^ 8, a.value / 2 ^ 40 % 2 ^ 8,
   a.value / 2 ^ 48 % 2 ^ 8, a.value / 2 ^ 56 % 2 ^ 8]

/-- `u64::from_le_bytes` — little-endian decoding of an 8-byte buffer. -/
def leDecode (l : List Nat) : Nat :=
  l.foldr (fun b acc => b + 2 ^ 8 * acc) 0

/-- `FieldElement::from_bytes` — decode little-endian; reject any value
`≥ PRIME` with `FieldError::DeserializationError`, otherwise build the
element through `new`. -/
def from_bytes (l : List Nat) : Except FieldError FieldElement :=
  let value := leDecode l
  if PRIME ≤ value then .error FieldError.DeserializationError
  else .ok (new value)

end FieldElement

/-- Helper predicate for stating the canonicity of a successful
deserialization without binders: holds of a `from_bytes` result when a
success carries a canonical value. -/
def okCanonical : Except FieldError FieldElement → Prop
  | .ok fe => fe.value < PRIME
  | .error _ => True

/-- Proof-support relation: the element `a` represents the residue of
`n` modulo `PRIME`. -/
def valEq (a : FieldElement) (n : Nat) : Prop :=
  a.value = n % PRIME

/-- Proof-support: structurally recursive modular exponentiation
(`fuel` bounds the number of halvings of the exponent), used to certify
the primality of `PRIME` by concrete kernel computation. -/
def powModAux : Nat → Nat → Nat → Nat → Nat
  | 0, _, _, m => 1 % m
  | fuel + 1, b, e, m =>
    if e = 0 then 1 % m
    else
      let r := powModAux fuel (b * b % m) (e / 2) m
      if e % 2 = 1 then r * b % m else r

/-- Proof-support: `b ^ e % m` for exponents below `2^128`. -/
def powMod (b e m : Nat) : Nat :=
  powModAux 128 b e m

instance : DecidablePred okCanonical := by
  intro r
  cases r <;> simp [okCanonical] <;> infer_instance

/-!  ## Correctness of the reduction routine  -/

/-- Exact value of `reduce`: the result equals
`low - high + middle * (2^32 - 1)` shifted by `k` copies of `PRIME` for
some `k ∈ {-1, 0, 1}` (one possible correction per step; here we only
need the existence of an integer shift). -/
theorem reduce_decomp (x : Nat) (hx : x < 2 ^ 128) :
    ∃ k : ℤ, (reduce x : ℤ) =
      (x % 2 ^ 64 : Nat) - (x / 2 ^ 96 : Nat) +
        (x / 2 ^ 64 % 2 ^ 32 : Nat) * (2 ^ 32 - 1) + k * (PRIME : ℤ) := by
  obtain ⟨l, m, h, hl, hm, hh, rfl⟩ :
      ∃ l m h, l < 2 ^ 64 ∧ m < 2 ^ 32 ∧ h < 2 ^ 32 ∧ x = l + 2 ^ 64 * m + 2 ^ 96 * h :=
    ⟨x % 2 ^ 64, x / 2 ^ 64 % 2 ^ 32, x / 2 ^ 96, by omega, by omega, by omega, by omega⟩
  have h1 : (l + 2 ^ 64 * m + 2 ^ 96 * h) % 2 ^ 64 = l := by omega
  have h2 : (l + 2 ^ 64 * m + 2 ^ 96 * h) / 2 ^ 64 % 2 ^ 64 = m + 2 ^ 32 * h := by omega
  have h3 : (m + 2 ^ 32 * h) % 2 ^ 32 = m := by omega
  have h5 : (l + 2 ^ 64 * m + 2 ^ 96 * h) / 2 ^ 96 = h := by omega
  have h6 : (l + 2 ^ 64 * m + 2 ^ 96 * h) / 2 ^ 64 % 2 ^ 32 = m := by omega
  have h4 : (m + 2 ^ 32 * h) / 2 ^ 32 = h := by omega
  simp only [reduce, h1, h2, h3, h4, h5, h6, PRIME]
  clear h1 h2 h3 h4 h5 h6 hx
  have hP : (m * 2 ^ 32 % 2 ^ 64 + 2 ^ 64 - m) % 2 ^ 64 = m * 2 ^ 32 - m := by omega
  rw [hP]
  by_cases hu : l < h
  · rw [if_pos hu, one_mul]
    have hA : (l + 2 ^ 64 - h) % 2 ^ 64 = l + 2 ^ 64 - h := by omega
    rw [hA]
    have hB : (l + 2 ^ 64 - h + 18446744069414584321) % 2 ^ 64 =
        l + 18446744069414584321 - h := by omega
    rw [hB]
    by_cases ho : 2 ^ 64 ≤ l + 18446744069414584321 - h + (m * 2 ^ 32 - m)
    · rw [if_pos ho, one_mul]
      have hC : ((l + 18446744069414584321 - h + (m * 2 ^ 32 - m)) % 2 ^ 64 + 2 ^ 64 -
          18446744069414584321) % 2 ^ 64 =
          l + 18446744069414584321 - h + (m * 2 ^ 32 - m) - 18446744069414584321 := by omega
      rw [hC]
      exact ⟨0, by omega⟩
    · rw [if_neg ho, zero_mul, Nat.sub_zero]
      have hC : ((l + 18446744069414584321 - h + (m * 2 ^ 32 - m)) % 2 ^ 64 + 2 ^ 64) % 2 ^ 64 =
          l + 18446744069414584321 - h + (m * 2 ^ 32 - m) := by omega
      rw [hC]
      exact ⟨1, by omega⟩
  · rw [if_neg hu, zero_mul, add_zero]
    have hA : ((l + 2 ^ 64 - h) % 2 ^ 64) % 2 ^ 64 = l - h := by omega
    rw [hA]
    by_cases ho : 2 ^ 64 ≤ l - h + (m * 2 ^ 32 - m)
    · rw [if_pos ho, one_mul]
      have hC : ((l - h + (m * 2 ^ 32 - m)) % 2 ^ 64 + 2 ^ 64 - 18446744069414584321) % 2 ^ 64 =
          l - h + (m * 2 ^ 32 - m) - 18446744069414584321 := by omega
      rw [hC]
      exact ⟨-1, by omega⟩
    · rw [if_neg ho, zero_mul, Nat.sub_zero]
      have hC : ((l - h + (m * 2 ^ 32 - m)) % 2 ^ 64 + 2 ^ 64) % 2 ^ 64 =
          l - h + (m * 2 ^ 32 - m) := by omega
      rw [hC]
      exact ⟨0, by omega⟩

/-- `reduce` is a modular reduction: its result is congruent to the
input modulo `PRIME`, for any input below `2^128`. -/
theorem reduce_mod (x : Nat) (hx : x < 2 ^ 128) : reduce x % PRIME = x % PRIME := by
  obtain ⟨k, hk⟩ := reduce_decomp x hx
  have hmod : ((reduce x : ℤ)) % (PRIME : ℤ) = (x : ℤ) % (PRIME : ℤ) := by
    have hdvd : (PRIME : ℤ) ∣ ((x : ℤ) - (reduce x : ℤ)) := by
      refine ⟨(x / 2 ^ 64 % 2 ^ 32 : Nat) + ((2 : ℤ) ^ 32 + 1) * (x / 2 ^ 96 : Nat) - k, ?_⟩
      have hd : (x : ℤ) = (x % 2 ^ 64 : Nat) + 2 ^ 64 * (x / 2 ^ 64 % 2 ^ 32 : Nat) +
          2 ^ 96 * (x / 2 ^ 96 : Nat) := by
        push_cast
        omega
      rw [hk, hd]
      push_cast [PRIME]
      ring
    exact Int.modEq_iff_dvd.mpr hdvd
  exact_mod_cast hmod

/-- `reduce` always fits in a `u64`. -/
theorem reduce_lt (x : Nat) : reduce x < 2 ^ 64 := by
  simp only [reduce]
  omega

/-!  ## Value-level facts about the operators  -/

theorem PRIME_pos : 0 < PRIME := by norm_num [PRIME]

theorem PRIME_lt_u64 : PRIME < 2 ^ 64 := by norm_num [PRIME]

theorem valInj {a b : FieldElement} (h : a.value = b.value) : a = b := by
  cases a
  cases b
  cases h
  rfl

theorem eq_ZERO_iff (a : FieldElement) : a = ZERO ↔ a.value = 0 := by
  cases a
  simp [ZERO]

theorem mul_value (a b : FieldElement) (ha : a.value < 2 ^ 64) (hb : b.value < 2 ^ 64) :
    (a.mul b).value = a.value * b.value % PRIME := by
  have h1 : a.value * b.value ≤ (2 ^ 64 - 1) * (2 ^ 64 - 1) :=
    Nat.mul_le_mul (by omega) (by omega)
  have hlt : a.value * b.value < 2 ^ 128 := by omega
  show reduce (a.value * b.value % 2 ^ 128) % PRIME = _
  rw [Nat.mod_eq_of_lt hlt, reduce_mod _ hlt]

theorem valEq_lt {a : FieldElement} {n : Nat} (h : valEq a n) : a.value < PRIME := by
  rw [h]
  exact Nat.mod_lt _ PRIME_pos

theorem valEq_mul {a b : FieldElement} {m n : Nat} (h1 : valEq a m) (h2 : valEq b n) :
    valEq (a.mul b) (m * n) := by
  have ha : a.value < 2 ^ 64 := lt_trans (valEq_lt h1) PRIME_lt_u64
  have hb : b.value < 2 ^ 64 := lt_trans (valEq_lt h2) PRIME_lt_u64
  unfold valEq at *
  rw [mul_value a b ha hb, h1, h2, ← Nat.mul_mod]

theorem valEq_congr {a : FieldElement} {m n : Nat} (h : valEq a m) (hmn : m = n) :
    valEq a n :=
  hmn ▸ h

theorem valEq_pow_congr {a : FieldElement} {v i j : Nat} (h : valEq a (v ^ i)) (hij : i = j) :
    valEq a (v ^ j) :=
  hij ▸ h

theorem valEq_pow_mul {a b : FieldElement} {v j k : Nat} (h1 : valEq a (v ^ j))
    (h2 : valEq b (v ^ k)) : valEq (a.mul b) (v ^ (j + k)) := by
  rw [pow_add]
  exact valEq_mul h1 h2

theorem valEq_square {a : FieldElement} {v k : Nat} (h : valEq a (v ^ k)) :
    valEq a.square (v ^ (2 * k)) :=
  valEq_congr (valEq_pow_mul h h) (by ring_nf)

theorem valEq_squareTimes {a : FieldElement} {v k : Nat} (h : valEq a (v ^ k)) (n : Nat) :
    valEq (squareTimes a n) (v ^ (2 ^ n * k)) := by
  induction n with
  | zero => simpa using h
  | succ n ih =>
      show valEq (squareTimes a n).square _
      exact valEq_congr (valEq_square ih) (by ring_nf)

theorem valEq_exp_acc {base tail : FieldElement} {v j k : Nat} (h1 : valEq base (v ^ j))
    (h2 : valEq tail (v ^ k)) (n : Nat) : valEq (exp_acc n base tail) (v ^ (2 ^ n * j + k)) :=
  valEq_pow_mul (valEq_squareTimes h1 n) h2

theorem inv_valEq {a : FieldElement} {v : Nat} (h1 : valEq a (v ^ 1)) :
    valEq a.inv (v ^ (PRIME - 2)) := by
  have hc : valEq a.cube (v ^ 3) := by
    show valEq ((a.mul a).mul a) _
    have h := valEq_pow_mul (valEq_pow_mul h1 h1) h1
    norm_num at h
    exact h
  simp only [FieldElement.inv]
  set t2 := a.cube with ht2
  set t3 := t2.square.mul a with ht3
  set t6 := exp_acc 3 t3 t3 with ht6
  set t12 := exp_acc 6 t6 t6 with ht12
  set t24 := exp_acc 12 t12 t12 with ht24
  set t30 := exp_acc 6 t24 t6 with ht30
  set t31 := t30.square.mul a with ht31
  set t63 := exp_acc 32 t31 t31 with ht63
  have h3 : valEq t3 (v ^ 7) := by
    rw [ht3]
    have h := valEq_pow_mul (valEq_square hc) h1
    norm_num at h
    exact h
  have h6 : valEq t6 (v ^ 63) := by
    rw [ht6]
    have h := valEq_exp_acc h3 h3 3
    norm_num at h
    exact h
  have h12 : valEq t12 (v ^ 4095) := by
    rw [ht12]
    have h := valEq_exp_acc h6 h6 6
    norm_num at h
    exact h
  have h24 : valEq t24 (v ^ 16777215) := by
    rw [ht24]
    have h := valEq_exp_acc h12 h12 12
    norm_num at h
    exact h
  have h30 : valEq t30 (v ^ 1073741823) := by
    rw [ht30]
    have h := valEq_exp_acc h24 h6 6
    norm_num at h
    exact h
  have h31 : valEq t31 (v ^ 2147483647) := by
    rw [ht31]
    have h := valEq_pow_mul (valEq_square h30) h1
    norm_num at h
    exact h
  have h63 : valEq t63 (v ^ 9223372034707292159) := by
    rw [ht63]
    have h := valEq_exp_acc h31 h31 32
    norm_num at h
    exact h
  have hfin := valEq_pow_mul (valEq_square h63) h1
  norm_num at hfin
  exact valEq_congr hfin (by norm_num [PRIME])

theorem inv_value (a : FieldElement) (ha : a.value < PRIME) :
    a.inv.value = a.value ^ (PRIME - 2) % PRIME := by
  have h1 : valEq a (a.value ^ 1) := by
    unfold valEq
    rw [pow_one, Nat.mod_eq_of_lt ha]
  exact inv_valEq h1

theorem valEq_ONE {v : Nat} : valEq ONE (v ^ 0) := by
  unfold valEq
  norm_num [ONE, PRIME]

theorem expLoop_valEq {v : Nat} : ∀ (fuel powVal b r : Nat) (base res : FieldElement),
    powVal ≤ fuel → valEq base (v ^ b) → valEq res (v ^ r) →
    valEq (FieldElement.expLoop fuel base res powVal) (v ^ (r + b * (2 * powVal)))
  | 0, powVal, b, r, base, res, hle, _, hres => by
      have : powVal = 0 := by omega
      subst this
      simpa using hres
  | fuel + 1, powVal, b, r, base, res, hle, hbase, hres => by
      by_cases hp : 0 < powVal
      · rw [FieldElement.expLoop, if_pos hp]
        have hbase2 : valEq base.square (v ^ (2 * b)) := valEq_square hbase
        show valEq (FieldElement.expLoop fuel base.square
          (if powVal % 2 = 1 then res.mul base.square else res) (powVal / 2)) _
        by_cases hodd : powVal % 2 = 1
        · rw [if_pos hodd]
          have hres2 : valEq (res.mul base.square) (v ^ (r + 2 * b)) :=
            valEq_pow_mul hres hbase2
          have h := expLoop_valEq fuel (powVal / 2) (2 * b) (r + 2 * b) base.square
            (res.mul base.square) (by omega) hbase2 hres2
          refine valEq_pow_congr h ?_
          obtain ⟨q, hq⟩ : ∃ q, powVal = 2 * q + 1 := ⟨powVal / 2, by omega⟩
          have hq2 : powVal / 2 = q := by omega
          rw [hq2, hq]
          ring
        · rw [if_neg hodd]
          have h := expLoop_valEq fuel (powVal / 2) (2 * b) r base.square res
            (by omega) hbase2 hres
          refine valEq_pow_congr h ?_
          obtain ⟨q, hq⟩ : ∃ q, powVal = 2 * q := ⟨powVal / 2, by omega⟩
          have hq2 : powVal / 2 = q := by omega
          rw [hq2, hq]
          ring
      · rw [FieldElement.expLoop, if_neg hp]
        have : powVal = 0 := by omega
        subst this
        simpa using hres

theorem exp_value (a pow : FieldElement) (ha : a.value < PRIME) :
    (a.exp pow).value = a.value ^ pow.value % PRIME := by
  unfold FieldElement.exp
  by_cases hp0 : pow = ZERO
  · rw [if_pos hp0, hp0]
    norm_num [ONE, ZERO, PRIME]
  · rw [if_neg hp0]
    have hpv : pow.value ≠ 0 := fun h => hp0 ((eq_ZERO_iff pow).mpr h)
    by_cases ha0 : a = ZERO
    · rw [if_pos ha0, ha0]
      show (0 : Nat) = 0 ^ pow.value % PRIME
      rw [zero_pow hpv, Nat.zero_mod]
    · rw [if_neg ha0]
      have h1 : valEq a (a.value ^ 1) := by
        unfold valEq
        rw [pow_one, Nat.mod_eq_of_lt ha]
      have hres : valEq (if pow.value % 2 = 1 then a else ONE) (a.value ^ (pow.value % 2)) := by
        by_cases hb : pow.value % 2 = 1
        · rw [if_pos hb, hb]
          exact h1
        · rw [if_neg hb]
          have hb0 : pow.value % 2 = 0 := by omega
          rw [hb0]
          exact valEq_ONE
      have h := expLoop_valEq pow.value (pow.value / 2) 1 (pow.value % 2) a
        (if pow.value % 2 = 1 then a else ONE) (by omega) h1 hres
      have h2 := valEq_pow_congr h (by omega : pow.value % 2 + 1 * (2 * (pow.value / 2)) = pow.value)
      exact h2

/-!  ## Primality of `PRIME` and Fermat's little theorem  -/

theorem powModAux_correct : ∀ (fuel b e m : Nat), e < 2 ^ fuel →
    powModAux fuel b e m = b ^ e % m
  | 0, b, e, m, he => by
      have he0 : e = 0 := by omega
      subst he0
      simp [powModAux]
  | fuel + 1, b, e, m, he => by
      rw [powModAux]
      by_cases he0 : e = 0
      · rw [if_pos he0, he0]
        simp
      · rw [if_neg he0]
        have hpow : (2 : Nat) ^ (fuel + 1) = 2 * 2 ^ fuel := by
          rw [pow_succ]
          ring
        have hrec := powModAux_correct fuel (b * b % m) (e / 2) m (by omega)
        have hbb : (b * b % m) ^ (e / 2) % m = b ^ (2 * (e / 2)) % m := by
          rw [← Nat.pow_mod, ← pow_two, ← pow_mul]
        by_cases hodd : e % 2 = 1
        · rw [if_pos hodd]
          show powModAux fuel (b * b % m) (e / 2) m * b % m = b ^ e % m
          rw [hrec, hbb]
          have he2 : e = 2 * (e / 2) + 1 := by omega
          conv_rhs => rw [he2, pow_succ]
          rw [Nat.mul_mod, Nat.mod_mod_of_dvd _ dvd_rfl, ← Nat.mul_mod]
        · rw [if_neg hodd]
          show powModAux fuel (b * b % m) (e / 2) m = b ^ e % m
          rw [hrec, hbb]
          have he2 : e = 2 * (e / 2) := by omega
          rw [← he2]

theorem powMod_correct (b e m : Nat) (he : e < 2 ^ 128) : powMod b e m = b ^ e % m :=
  powModAux_correct 128 b e m he

theorem powMod_zmod (b e : Nat) (he : e < 2 ^ 128) :
    ((powMod b e PRIME : Nat) : ZMod PRIME) = ((b : Nat) : ZMod PRIME) ^ e := by
  rw [powMod_correct b e PRIME he, ZMod.natCast_mod, Nat.cast_pow]

theorem pow7_ne_one (e : Nat) (he : e < 2 ^ 128) (hne : powMod 7 e PRIME ≠ 1) :
    ((7 : Nat) : ZMod PRIME) ^ e ≠ 1 := by
  intro heq
  rw [← powMod_zmod 7 e he] at heq
  have hcast : ((powMod 7 e PRIME : Nat) : ZMod PRIME) = ((1 : Nat) : ZMod PRIME) := by
    rw [heq, Nat.cast_one]
  have hmodeq := (ZMod.natCast_eq_natCast_iff _ _ _).mp hcast
  unfold Nat.ModEq at hmodeq
  have hc : powMod 7 e PRIME = 7 ^ e % PRIME := powMod_correct 7 e PRIME he
  have h1 : (1 : Nat) % PRIME = 1 := Nat.mod_eq_of_lt (by norm_num [PRIME])
  rw [hc, Nat.mod_mod_of_dvd _ dvd_rfl, h1] at hmodeq
  rw [hc] at hne
  exact hne hmodeq

theorem PRIME_sub_one_factors (q : Nat) (hq : q.Prime) (hdvd : q ∣ PRIME - 1) :
    q = 2 ∨ q = 3 ∨ q = 5 ∨ q = 17 ∨ q = 257 ∨ q = 65537 := by
  have hfac : PRIME - 1 = 2 ^ 32 * (3 * (5 * (17 * (257 * 65537)))) := by norm_num [PRIME]
  rw [hfac] at hdvd
  rcases (Nat.Prime.dvd_mul hq).mp hdvd with h1 | h1
  · exact Or.inl ((Nat.prime_dvd_prime_iff_eq hq (by norm_num)).mp (hq.dvd_of_dvd_pow h1))
  rcases (Nat.Prime.dvd_mul hq).mp h1 with h2 | h2
  · exact Or.inr (Or.inl ((Nat.prime_dvd_prime_iff_eq hq (by norm_num)).mp h2))
  rcases (Nat.Prime.dvd_mul hq).mp h2 with h3 | h3
  · exact Or.inr (Or.inr (Or.inl ((Nat.prime_dvd_prime_iff_eq hq (by norm_num)).mp h3)))
  rcases (Nat.Prime.dvd_mul hq).mp h3 with h4 | h4
  · exact Or.inr (Or.inr (Or.inr (Or.inl ((Nat.prime_dvd_prime_iff_eq hq (by norm_num)).mp h4))))
  rcases (Nat.Prime.dvd_mul hq).mp h4 with h5 | h5
  · exact Or.inr (Or.inr (Or.inr (Or.inr (Or.inl
      ((Nat.prime_dvd_prime_iff_eq hq (by norm_num)).mp h5)))))
  · exact Or.inr (Or.inr (Or.inr (Or.inr (Or.inr
      ((Nat.prime_dvd_prime_iff_eq hq (by norm_num)).mp h5)))))

theorem PRIME_prime : Nat.Prime PRIME := by
  have hbig : PRIME - 1 < 2 ^ 128 := by norm_num [PRIME]
  refine lucas_primality PRIME ((7 : Nat) : ZMod PRIME) ?_ ?_
  · have hpm : powMod 7 (PRIME - 1) PRIME = 1 := by decide
    rw [← powMod_zmod 7 (PRIME - 1) hbig, hpm, Nat.cast_one]
  · intro q hq hdvd
    rcases PRIME_sub_one_factors q hq hdvd with rfl | rfl | rfl | rfl | rfl | rfl
    · exact pow7_ne_one _ (by omega) (by decide)
    · exact pow7_ne_one _ (by omega) (by decide)
    · exact pow7_ne_one _ (by omega) (by decide)
    · exact pow7_ne_one _ (by omega) (by decide)
    · exact pow7_ne_one _ (by omega) (by decide)
    · exact pow7_ne_one _ (by omega) (by decide)

theorem fermat_value (v : Nat) (hv : v ≠ 0) (hlt : v < PRIME) :
    v ^ (PRIME - 1) % PRIME = 1 := by
  haveI : Fact (Nat.Prime PRIME) := ⟨PRIME_prime⟩
  have hz : ((v : Nat) : ZMod PRIME) ≠ 0 := by
    rw [Ne, ZMod.natCast_zmod_eq_zero_iff_dvd]
    intro hdvd
    have := Nat.le_of_dvd (by omega) hdvd
    omega
  have h := ZMod.pow_card_sub_one_eq_one hz
  have h2 : (((v ^ (PRIME - 1)) : Nat) : ZMod PRIME) = ((1 : Nat) : ZMod PRIME) := by
    push_cast
    exact h
  have h3 := (ZMod.natCast_eq_natCast_iff _ _ _).mp h2
  unfold Nat.ModEq at h3
  rwa [Nat.mod_eq_of_lt (show (1 : Nat) < PRIME by norm_num [PRIME])] at h3

/-!  ## Remaining small helpers  -/

theorem new_value_lt (x : Nat) : (FieldElement.new x).value < PRIME :=
  Nat.mod_lt _ PRIME_pos

theorem neg_value_lt (a : FieldElement) (ha : a.value < PRIME) : a.neg.value < PRIME := by
  simp only [FieldElement.neg]
  split_ifs with h0
  · show a.value < PRIME
    exact ha
  · show (PRIME + 2 ^ 64 - a.value) % 2 ^ 64 < PRIME
    simp only [PRIME] at *
    omega

theorem mul_ZERO (a : FieldElement) : a.mul ZERO = ZERO := by
  apply valInj
  show reduce (a.value * ZERO.value % 2 ^ 128) % PRIME = ZERO.value
  have hz : a.value * ZERO.value % 2 ^ 128 = 0 := by
    show a.value * 0 % 2 ^ 128 = 0
    simp
  rw [hz, show reduce 0 = 0 from by decide]
  rfl

theorem leDecode_to_bytes (a : FieldElement) (ha : a.value < 2 ^ 64) :
    FieldElement.leDecode a.to_bytes = a.value := by
  simp only [FieldElement.to_bytes, FieldElement.leDecode, List.foldr]
  omega

/-!  ## Claim theorems  -/

/-- C1: for every input `x ≤ (PRIME - 1)^2`, `reduce x` is congruent to
`x` modulo `PRIME`, and equivalently — splitting `x` as
`low + 2^64 * mid + 2^96 * high` — it is congruent to
`low - high + mid * (2^32 - 1)` modulo `PRIME` (the embedded `reduce`
applies at most one `PRIME` correction after the subtraction and at most
one after the addition, exactly as the source does). -/
theorem reduce_congruent_to_input (x : Nat) (hx : x ≤ (PRIME - 1) ^ 2) :
    reduce x % PRIME = x % PRIME ∧
    (reduce x : ℤ) ≡ (x % 2 ^ 64 : Nat) - (x / 2 ^ 96 : Nat) +
      (x / 2 ^ 64 % 2 ^ 32 : Nat) * (2 ^ 32 - 1) [ZMOD (PRIME : ℤ)] := by
  have hx128 : x < 2 ^ 128 := by
    have h2 : (PRIME - 1) ^ 2 < 2 ^ 128 := by norm_num [PRIME]
    omega
  refine ⟨reduce_mod x hx128, ?_⟩
  obtain ⟨k, hk⟩ := reduce_decomp x hx128
  show (reduce x : ℤ) % (PRIME : ℤ) = _ % (PRIME : ℤ)
  rw [hk]
  exact Int.add_mul_emod_self

/-- C1 witness: the congruences hold at the concrete input `2^100 + 12345`. -/
theorem reduce_congruent_to_input_witness :
    reduce (2 ^ 100 + 12345) % PRIME = (2 ^ 100 + 12345) % PRIME ∧
    (reduce (2 ^ 100 + 12345) : ℤ) ≡ ((2 ^ 100 + 12345) % 2 ^ 64 : Nat) -
      ((2 ^ 100 + 12345) / 2 ^ 96 : Nat) +
      ((2 ^ 100 + 12345) / 2 ^ 64 % 2 ^ 32 : Nat) * (2 ^ 32 - 1) [ZMOD (PRIME : ℤ)] :=
  reduce_congruent_to_input (2 ^ 100 + 12345) (by norm_num [PRIME])

/-- C2: every public operation returns a value satisfying the canonical
invariant `value < PRIME` when applied to canonical inputs
(`div`/`inv` are included without a nonzero side condition because their
final step also normalizes through `new`; a successful `from_bytes` is
expressed through `okCanonical`). -/
theorem ops_preserve_invariant (x : Nat) (a b : FieldElement) (l : List Nat)
    (ha : a.value < PRIME) (hb : b.value < PRIME) :
    (FieldElement.new x).value < PRIME ∧
    (a.add b).value < PRIME ∧
    (a.sub b).value < PRIME ∧
    a.neg.value < PRIME ∧
    a.double.value < PRIME ∧
    (a.mul b).value < PRIME ∧
    (a.div b).value < PRIME ∧
    a.square.value < PRIME ∧
    a.cube.value < PRIME ∧
    (a.exp b).value < PRIME ∧
    a.inv.value < PRIME ∧
    okCanonical (FieldElement.from_bytes l) := by
  refine ⟨new_value_lt x, Nat.mod_lt _ PRIME_pos, Nat.mod_lt _ PRIME_pos,
    neg_value_lt a ha, Nat.mod_lt _ PRIME_pos, Nat.mod_lt _ PRIME_pos,
    Nat.mod_lt _ PRIME_pos, Nat.mod_lt _ PRIME_pos, Nat.mod_lt _ PRIME_pos,
    ?_, Nat.mod_lt _ PRIME_pos, ?_⟩
  · rw [exp_value a b ha]
    exact Nat.mod_lt _ PRIME_pos
  · simp only [FieldElement.from_bytes]
    split_ifs with h
    · trivial
    · exact new_value_lt _

/-- C2 witness: the invariant facts at concrete inputs. -/
theorem ops_preserve_invariant_witness :
    (FieldElement.new 123).value < PRIME ∧
    ((⟨5⟩ : FieldElement).add ⟨7⟩).value < PRIME ∧
    ((⟨5⟩ : FieldElement).sub ⟨7⟩).value < PRIME ∧
    (⟨5⟩ : FieldElement).neg.value < PRIME ∧
    (⟨5⟩ : FieldElement).double.value < PRIME ∧
    ((⟨5⟩ : FieldElement).mul ⟨7⟩).value < PRIME ∧
    ((⟨5⟩ : FieldElement).div ⟨7⟩).value < PRIME ∧
    (⟨5⟩ : FieldElement).square.value < PRIME ∧
    (⟨5⟩ : FieldElement).cube.value < PRIME ∧
    ((⟨5⟩ : FieldElement).exp ⟨7⟩).value < PRIME ∧
    (⟨5⟩ : FieldElement).inv.value < PRIME ∧
    okCanonical (FieldElement.from_bytes [1, 0, 0, 0, 0, 0, 0, 0]) :=
  ops_preserve_invariant 123 ⟨5⟩ ⟨7⟩ [1, 0, 0, 0, 0, 0, 0, 0] (by decide) (by decide)

/-- C3: multiplication of canonical elements computes the product of
the two values modulo `PRIME` (via the full double-width product and
`reduce`); it is a total function. -/
theorem mul_is_modular_product (a b : FieldElement) (ha : a.value < PRIME)
    (hb : b.value < PRIME) : (a.mul b).value = a.value * b.value % PRIME :=
  mul_value a b (lt_trans ha PRIME_lt_u64) (lt_trans hb PRIME_lt_u64)

/-- C3 witness: `3 * 4 = 12` in the field. -/
theorem mul_is_modular_product_witness :
    ((⟨3⟩ : FieldElement).mul ⟨4⟩).value = 3 * 4 % PRIME :=
  mul_is_modular_product ⟨3⟩ ⟨4⟩ (by decide) (by decide)

/-- C4: for canonical nonzero `a`, the fixed addition chain of `inv`
computes exactly the same element as the generic square-and-multiply
`exp` at exponent `PRIME - 2`. -/
theorem inv_matches_generic_exp (a : FieldElement) (ha : a.value < PRIME) (h0 : a ≠ ZERO) :
    a.inv = a.exp (FieldElement.new (PRIME - 2)) := by
  apply valInj
  rw [inv_value a ha, exp_value a _ ha]
  have hval : (FieldElement.new (PRIME - 2)).value = PRIME - 2 := by
    show (PRIME - 2) % PRIME = PRIME - 2
    have : PRIME - 2 < PRIME := by norm_num [PRIME]
    exact Nat.mod_eq_of_lt this
  rw [hval]

/-- C4 witness: the chain and the generic exponentiation agree at `5`. -/
theorem inv_matches_generic_exp_witness :
    (⟨5⟩ : FieldElement).inv = (⟨5⟩ : FieldElement).exp (FieldElement.new (PRIME - 2)) :=
  inv_matches_generic_exp ⟨5⟩ (by decide) (by decide)

/-- C5: for canonical nonzero `a`, `a * a.inv() = ONE`. -/
theorem mul_inv_eq_ONE (a : FieldElement) (ha : a.value < PRIME) (h0 : a ≠ ZERO) :
    a.mul a.inv = ONE := by
  apply valInj
  have hv0 : a.value ≠ 0 := fun h => h0 ((eq_ZERO_iff a).mpr h)
  have hinv : a.inv.value = a.value ^ (PRIME - 2) % PRIME := inv_value a ha
  have hinvlt : a.inv.value < PRIME := by
    rw [hinv]
    exact Nat.mod_lt _ PRIME_pos
  rw [mul_value a a.inv (lt_trans ha PRIME_lt_u64) (lt_trans hinvlt PRIME_lt_u64), hinv]
  have h1 : a.value * (a.value ^ (PRIME - 2) % PRIME) % PRIME =
      a.value * a.value ^ (PRIME - 2) % PRIME := by
    conv_lhs => rw [Nat.mul_mod, Nat.mod_mod_of_dvd _ dvd_rfl, ← Nat.mul_mod]
  have h2 : a.value * a.value ^ (PRIME - 2) = a.value ^ (PRIME - 1) := by
    rw [← pow_succ']
    congr 1
  rw [h1, h2, fermat_value a.value hv0 ha]
  rfl

/-- C5 witness: `5 * 5⁻¹ = 1` in the field. -/
theorem mul_inv_eq_ONE_witness : (⟨5⟩ : FieldElement).mul (⟨5⟩ : FieldElement).inv = ONE :=
  mul_inv_eq_ONE ⟨5⟩ (by decide) (by decide)

/-- C6: `exp` computes `value ^ pow.value mod PRIME` by
square-and-multiply, with the documented special cases: `a^0 = 1`
(including `0^0 = 1`), `a^1 = a`, and `0^pow = 0` for nonzero `pow`. -/
theorem exp_is_modular_pow (a pow : FieldElement) (ha : a.value < PRIME)
    (hpow : pow.value < PRIME) :
    (a.exp pow).value = a.value ^ pow.value % PRIME ∧
    a.exp ZERO = ONE ∧
    a.exp ONE = a ∧
    ZERO.exp pow = (if pow = ZERO then ONE else ZERO) := by
  refine ⟨exp_value a pow ha, ?_, ?_, ?_⟩
  · apply valInj
    rw [exp_value a ZERO ha]
    show a.value ^ (0 : Nat) % PRIME = (1 : Nat)
    norm_num [PRIME]
  · apply valInj
    rw [exp_value a ONE ha]
    show a.value ^ (1 : Nat) % PRIME = a.value
    rw [pow_one]
    exact Nat.mod_eq_of_lt ha
  · by_cases hz : pow = ZERO
    · rw [hz, if_pos rfl]
      decide
    · rw [if_neg hz]
      apply valInj
      rw [exp_value ZERO pow (by norm_num [ZERO, PRIME])]
      have hpv : pow.value ≠ 0 := fun h => hz ((eq_ZERO_iff pow).mpr h)
      show (0 : Nat) ^ pow.value % PRIME = (0 : Nat)
      rw [zero_pow hpv, Nat.zero_mod]

/-- C6 witness: exponentiation facts at `3 ^ 5`. -/
theorem exp_is_modular_pow_witness :
    ((⟨3⟩ : FieldElement).exp ⟨5⟩).value = 3 ^ 5 % PRIME ∧
    (⟨3⟩ : FieldElement).exp ZERO = ONE ∧
    (⟨3⟩ : FieldElement).exp ONE = ⟨3⟩ ∧
    ZERO.exp (⟨5⟩ : FieldElement) = (if (⟨5⟩ : FieldElement) = ZERO then ONE else ZERO) :=
  exp_is_modular_pow ⟨3⟩ ⟨5⟩ (by decide) (by decide)

/-- C7 counterexample: `reduce` does not always return a canonical
value — at the in-range input `PRIME` itself it returns `PRIME`,
which is not `< PRIME`. -/
theorem reduce_not_canonical_counterexample :
    PRIME ≤ (PRIME - 1) ^ 2 ∧ reduce PRIME = PRIME ∧ ¬ reduce PRIME < PRIME := by
  refine ⟨by norm_num [PRIME], by decide, by decide⟩

/-- C7 amended: for every input `x ≤ (PRIME - 1)^2`, `reduce x` is
congruent to `x` modulo `PRIME` and fits in a `u64`, but it need not be
canonical; canonical range is restored by its callers (`Mul`, the
round-constant generator) which pass the result through `new`. -/
theorem reduce_congruent_u64 (x : Nat) (hx : x ≤ (PRIME - 1) ^ 2) :
    reduce x % PRIME = x % PRIME ∧ reduce x < 2 ^ 64 := by
  have hx128 : x < 2 ^ 128 := by
    have h2 : (PRIME - 1) ^ 2 < 2 ^ 128 := by norm_num [PRIME]
    omega
  exact ⟨reduce_mod x hx128, reduce_lt x⟩

/-- C7 amended witness: at the concrete input `PRIME`. -/
theorem reduce_congruent_u64_witness :
    reduce PRIME % PRIME = PRIME % PRIME ∧ reduce PRIME < 2 ^ 64 :=
  reduce_congruent_u64 PRIME (by norm_num [PRIME])

/-- C8: serialization round-trips on canonical elements, and
deserialization fails with `DeserializationError` exactly when the
little-endian-decoded integer is `≥ PRIME` (never silently reducing). -/
theorem serialization_round_trip (a : FieldElement) (l : List Nat) (ha : a.value < PRIME)
    (hlen : l.length = 8) (hbytes : ∀ b ∈ l, b < 2 ^ 8) :
    FieldElement.from_bytes a.to_bytes = Except.ok a ∧
    (FieldElement.from_bytes l = Except.error FieldError.DeserializationError ↔
      PRIME ≤ FieldElement.leDecode l) := by
  constructor
  · have hdec : FieldElement.leDecode a.to_bytes = a.value :=
      leDecode_to_bytes a (lt_trans ha PRIME_lt_u64)
    simp only [FieldElement.from_bytes, hdec]
    rw [if_neg (by omega)]
    congr 1
    apply valInj
    show a.value % PRIME = a.value
    exact Nat.mod_eq_of_lt ha
  · simp only [FieldElement.from_bytes]
    split_ifs with h
    · simp [h]
    · simp [h]

/-- C8 witness: round trip at `5`, and rejection of the all-ones buffer. -/
theorem serialization_round_trip_witness :
    FieldElement.from_bytes (⟨5⟩ : FieldElement).to_bytes = Except.ok ⟨5⟩ ∧
    (FieldElement.from_bytes [255, 255, 255, 255, 255, 255, 255, 255] =
        Except.error FieldError.DeserializationError ↔
      PRIME ≤ FieldElement.leDecode [255, 255, 255, 255, 255, 255, 255, 255]) :=
  serialization_round_trip ⟨5⟩ [255, 255, 255, 255, 255, 255, 255, 255]
    (by decide) (by decide) (by decide)

/-- C9: `double` returns exactly the same element as adding a value to
itself — the two implementations agree bit for bit (here: definitionally,
for every element, canonical or not). -/
theorem double_eq_add_self (a : FieldElement) : a.double = a.add a := rfl

/-- C10: under release semantics (the debug assertion compiled out),
`inv ZERO` evaluates to `ZERO`, and hence `a / ZERO` evaluates to `ZERO`
for every element `a`: division by zero returns a numeric result rather
than failing. -/
theorem div_by_zero_is_zero (a : FieldElement) :
    ZERO.inv = ZERO ∧ a.div ZERO = ZERO := by
  refine ⟨by decide, ?_⟩
  show a.mul ZERO.inv = ZERO
  rw [show ZERO.inv = ZERO from by decide]
  exact mul_ZERO a

end RescuePrime
